import Mathlib

/-!
Verification of the weighted-destination standardization logic and its
callers from `pilot/pkg/config/kube/gateway/conversion.go`.

Modelling conventions:
* Go `int` is modelled as the unbounded `Int` (the weights in scope are
  Gateway API `int32` weights; overflow is outside the spec's contract).
* Go `float64` percentage arithmetic is modelled by exact rationals `ℚ`:
  the float expression `perc * 100` where `perc := float64(w)/float64(total)`
  is the rational `(w * 100) / total` (`percTimes100` below), and
  `(perc*100) - float64(rounded)` is the rational
  `(w * 100 - total * rounded) / total` (`remainderOf` below); the lemmas
  `percTimes100_eq` and `remainderOf_eq` restate both as literal quotients.
  Go's `int(f)` float-to-int conversion (truncation toward zero) is `trunc`.
* Go slices are modelled as `List`.  `standardizeWeights` mutates its input
  slice in place in the all-zero fallback, so the embedding
  `standardizeWeightsFull` returns both the final contents of the caller's
  slice and the freshly allocated result list.
* Go's `sort.Sort` is an unstable sort, so the order of equal elements in
  `argsort` is unspecified in the source; the embedding fixes one concrete
  order (insertion sort).  No theorem below depends on the tie order except
  through properties that hold for every descending order.
-/

namespace GatewayConversion

/-- `intSum` from conversion.go: left fold summing a list of integers. -/
def intSum (n : List Int) : Int :=
  n.foldl (fun r i => r + i) 0

/-- Go's `int(f)` conversion for `float64`: truncation toward zero. -/
def trunc (q : ℚ) : Int :=
  if q < 0 then q.ceil else q.floor

/-- The exact value of the float expression `perc * 100` in
`standardizeWeights`, where `perc := float64(w) / float64(total)`. -/
def percTimes100 (total w : Int) : ℚ :=
  Rat.divInt (w * 100) total

/-- `rounded := int(perc * 100)` from `standardizeWeights`. -/
def roundedOf (total w : Int) : Int :=
  trunc (percTimes100 total w)

/-- The exact value of the float expression `(perc*100) - float64(rounded)`
appended to `remainders` in `standardizeWeights`. -/
def remainderOf (total w : Int) : ℚ :=
  Rat.divInt (w * 100 - total * roundedOf total w) total

/-- `argsort` from conversion.go: indices of `n`, sorted so that the
corresponding values are in descending order (`sort.Sort(sort.Reverse(s))`).
The Go sort is unstable, so the relative order of equal values is
unspecified there; this embedding uses insertion sort as one concrete
realisation. -/
def argsort (n : List ℚ) : List Nat :=
  List.insertionSort (fun i j => n.getD j 0 ≤ n.getD i 0) (List.range n.length)

/-- The final loop of `standardizeWeights`: walk `order`, and while
`remaining > 0` increment `results[idx]` and decrement `remaining`. -/
def distribute : List Int → Int → List Nat → List Int
  | results, _, [] => results
  | results, remaining, idx :: rest =>
    if remaining ≤ 0 then results
    else distribute (results.set idx (results.getD idx 0 + 1)) (remaining - 1) rest

/-- Increment `results` at each index of `idxs` in order (no budget check);
`distribute results remaining order` coincides with incrementing at the
first `remaining` indices of `order`. -/
def incrAll (results : List Int) : List Nat → List Int
  | [] => results
  | idx :: rest => incrAll (results.set idx (results.getD idx 0 + 1)) rest

/-- The contents of the `weights` slice after the zero-total fallback loop
of `standardizeWeights` (`for i := range weights { weights[i] = 1 }`). -/
def fallbackWeights (weights : List Int) : List Int :=
  if intSum weights = 0 then List.replicate weights.length 1 else weights

/-- The value of `total` in `standardizeWeights` after the zero-total
fallback (`total = len(weights)`). -/
def fallbackTotal (weights : List Int) : Int :=
  if intSum weights = 0 then (weights.length : Int) else intSum weights

/-- `standardizeWeights` from conversion.go, with the in-place mutation of
the caller's slice made explicit: the first component is the final contents
of the input slice `weights` (rewritten to all `1`s by the zero-total
fallback loop), the second is the returned `results` slice. -/
def standardizeWeightsFull (weights : List Int) : List Int × List Int :=
  if weights.length = 1 then (weights, [0])
  else
    let weights1 := fallbackWeights weights
    let total := fallbackTotal weights
    let results := weights1.map (fun w => roundedOf total w)
    let remainders := weights1.map (fun w => remainderOf total w)
    let remaining := 100 - intSum results
    (weights1, distribute results remaining (argsort remainders))

/-- The value returned by `standardizeWeights`. -/
def standardizeWeights (weights : List Int) : List Int :=
  (standardizeWeightsFull weights).2

/-! ### The spec's exact floored percentages and fractional remainders -/
/-- The exact floored percentages the spec describes: for each post-fallback
weight `w`, `⌊w / total * 100⌋`.  Under the contract hypotheses this is the
`results` list of `standardizeWeights` before the distribution loop
(`flooredPercents_eq`). -/
def flooredPercents (weights : List Int) : List Int :=
  (fallbackWeights weights).map
    (fun w : Int => ⌊(w : ℚ) / ((fallbackTotal weights) : ℚ) * 100⌋)

/-- The exact fractional remainders the spec describes: for each
post-fallback weight `w`, `w / total * 100 - ⌊w / total * 100⌋`. -/
def fracRemainders (weights : List Int) : List ℚ :=
  (fallbackWeights weights).map
    (fun w : Int => (w : ℚ) / ((fallbackTotal weights) : ℚ) * 100 -
      (⌊(w : ℚ) / ((fallbackTotal weights) : ℚ) * 100⌋ : ℚ))

/-! ### A fault-checked embedding of `standardizeWeights`

`standardizeWeightsChecked` makes every potentially faulting operation of
the Go code explicit: the per-iteration division by `total` yields `none`
when `total = 0` (the spec's division-by-zero concern; the zero-total case
must have been diverted to the fallback before this point), and the
`results[idx]++` update yields `none` when `idx` is out of range (the Go
panic).  The function returns `some` exactly when no fault occurs. -/
/-- The rounding loop of `standardizeWeights` with the division guarded:
produces the `(rounded, remainder)` pairs, or `none` if a division by
`total = 0` is executed. -/
def roundLoop (total : Int) : List Int → Option (List (Int × ℚ))
  | [] => some []
  | w :: rest =>
    if total = 0 then none
    else
      match roundLoop total rest with
      | none => none
      | some l => some ((roundedOf total w, remainderOf total w) :: l)

/-- The distribution loop of `standardizeWeights` with the indexed update
guarded: `none` if `results[idx]++` would be out of range (a Go panic). -/
def distributeChecked : List Int → Int → List Nat → Option (List Int)
  | results, _, [] => some results
  | results, remaining, idx :: rest =>
    if remaining ≤ 0 then some results
    else if h : idx < results.length then
      distributeChecked (results.set idx (results.get ⟨idx, h⟩ + 1)) (remaining - 1) rest
    else none

/-- `standardizeWeights` with every fault made explicit. -/
def standardizeWeightsChecked (weights : List Int) : Option (List Int) :=
  if weights.length = 1 then some [0]
  else
    match roundLoop (fallbackTotal weights) (fallbackWeights weights) with
    | none => none
    | some pairs =>
      distributeChecked (pairs.map Prod.fst)
        (100 - intSum (pairs.map Prod.fst))
        (argsort (pairs.map Prod.snd))

/-! ### Data model for the callers of `standardizeWeights`

Gateway API backend references and the Istio route fragments produced from
them, as used by `buildTCPDestination`, `buildHTTPDestination` and the
per-rule body of `convertHTTPRoute` in conversion.go.  Go string maps are
modelled as association lists in insertion order; Go `nil` slices and empty
slices are both the empty list. -/
structure BackendObjectReference where
  group : Option String
  kind : Option String
  name : String
  ns : Option String
  port : Option Int
deriving DecidableEq

/-- `k8s.BackendRef`: an object reference plus an optional weight. -/
structure BackendRef where
  ref : BackendObjectReference
  weight : Option Int
deriving DecidableEq

structure HTTPRequestHeaderFilter where
  set : List (String × String)
  add : List (String × String)
  remove : List String
deriving DecidableEq

structure HTTPRequestRedirectFilter where
  scheme : Option String
  hostname : Option String
  port : Option Int
  statusCode : Option Int
deriving DecidableEq

structure HTTPRequestMirrorFilter where
  backendRef : BackendObjectReference
deriving DecidableEq

structure HTTPRouteFilter where
  type : String
  requestHeaderModifier : Option HTTPRequestHeaderFilter
  requestRedirect : Option HTTPRequestRedirectFilter
  requestMirror : Option HTTPRequestMirrorFilter
deriving DecidableEq

/-- `k8s.HTTPBackendRef`: a backend reference plus per-backend filters. -/
structure HTTPBackendRef where
  ref : BackendRef
  filters : List HTTPRouteFilter
deriving DecidableEq

def HTTPRouteFilterRequestHeaderModifier : String := "RequestHeaderModifier"

def HTTPRouteFilterRequestRedirect : String := "RequestRedirect"

def HTTPRouteFilterRequestMirror : String := "RequestMirror"

structure ConfigError where
  reason : String
  message : String
deriving DecidableEq

def InvalidDestination : String := "InvalidDestination"

def InvalidFilter : String := "InvalidFilter"

/-- `istio.Destination` (host plus optional port selector). -/
structure Destination where
  host : String
  port : Option Int
deriving DecidableEq

structure HeaderOperations where
  add : Option (List (String × String))
  remove : List String
  set : Option (List (String × String))
deriving DecidableEq

structure Headers where
  request : HeaderOperations
deriving DecidableEq

inductive RedirectPort where
  | port (p : Int)
  | derivePort
deriving DecidableEq

structure HTTPRedirect where
  redirectCode : Int
  authority : String
  scheme : String
  redirectPort : RedirectPort
deriving DecidableEq

structure HTTPFaultAbort where
  percentage : Int
  httpStatus : Int
deriving DecidableEq

/-- `istio.HTTPFaultInjection` with an `Abort` clause. -/
structure HTTPFault where
  abort : HTTPFaultAbort
deriving DecidableEq

structure RouteDestination where
  destination : Destination
  weight : Int
deriving DecidableEq

structure HTTPRouteDestination where
  destination : Destination
  weight : Int
  headers : Option Headers
deriving DecidableEq

/-- The fields of `istio.HTTPRoute` populated by the per-rule body of
`convertHTTPRoute` that are modelled here (the `Match` field, populated from
lines 180–207, does not interact with filters, fault injection or
destinations and is not modelled). -/
structure HTTPRouteVS where
  headers : Option Headers
  redirect : Option HTTPRedirect
  mirror : Option Destination
  fault : Option HTTPFault
  route : List HTTPRouteDestination
deriving DecidableEq

/-- A Gateway API `HTTPRouteRule` restricted to the fields the modelled
fragment reads (`Filters` and `BackendRefs`). -/
structure HTTPRouteRule where
  filters : List HTTPRouteFilter
  backendRefs : List HTTPBackendRef
deriving DecidableEq

/-! ### Helper functions from conversion.go -/
def defaultIfNil (s : Option String) (d : String) : String :=
  match s with
  | some v => v
  | none => d

def emptyIfNil (s : Option String) : String :=
  defaultIfNil s ""

def nilOrEqual : Option String → String → Bool
  | none, _ => true
  | some v, expected => v == expected

/-- The loop body of `headerListToMap`: lowercase keys, first occurrence
wins. -/
def headerListLoop : List (String × String) → List (String × String) → List (String × String)
  | res, [] => res
  | res, e :: rest =>
    let k := e.1.toLower
    if (res.lookup k).isSome then headerListLoop res rest
    else headerListLoop (res ++ [(k, e.2)]) rest

def headerListToMap (hl : List (String × String)) : Option (List (String × String)) :=
  if hl.length = 0 then none else some (headerListLoop [] hl)

def createHeadersFilter (filter : Option HTTPRequestHeaderFilter) : Option Headers :=
  match filter with
  | none => none
  | some f => some ⟨⟨headerListToMap f.add, f.remove, headerListToMap f.set⟩⟩

def createRedirectFilter (filter : Option HTTPRequestRedirectFilter) : Option HTTPRedirect :=
  match filter with
  | none => none
  | some f =>
    some ⟨(match f.statusCode with | some c => c | none => 0),
      (match f.hostname with | some h => h | none => ""),
      (match f.scheme with | some s => s | none => ""),
      (match f.port with | some p => RedirectPort.port p | none => RedirectPort.derivePort)⟩

/-- `buildDestination` from conversion.go. -/
def buildDestination (toRef : BackendRef) (ns domain : String) :
    Except ConfigError Destination :=
  let namespace1 := defaultIfNil toRef.ref.ns ns
  if nilOrEqual toRef.ref.group "" && nilOrEqual toRef.ref.kind "Service" then
    match toRef.ref.port with
    | none => .error ⟨InvalidDestination, "port is required in backendRef"⟩
    | some port =>
      if toRef.ref.name.contains '.' then
        .error ⟨InvalidDestination,
          "serviceName invalid; the name of the Service must be used, not the hostname."⟩
      else
        .ok ⟨toRef.ref.name ++ "." ++ namespace1 ++ ".svc." ++ domain, some port⟩
  else if nilOrEqual toRef.ref.group "networking.istio.io" && nilOrEqual toRef.ref.kind "Hostname" then
    match toRef.ref.port with
    | none => .error ⟨InvalidDestination, "port is required in backendRef"⟩
    | some port =>
      if toRef.ref.ns ≠ none then
        .error ⟨InvalidDestination, "namespace may not be set with Hostname type"⟩
      else
        .ok ⟨toRef.ref.name, some port⟩
  else
    .error ⟨InvalidDestination,
      "referencing unsupported backendRef: group " ++ emptyIfNil toRef.ref.group ++
        " kind " ++ emptyIfNil toRef.ref.kind⟩

def createMirrorFilter (filter : Option HTTPRequestMirrorFilter) (ns domain : String) :
    Except ConfigError (Option Destination) :=
  match filter with
  | none => .ok none
  | some f =>
    match buildDestination ⟨f.backendRef, some 1⟩ ns domain with
    | .error e => .error e
    | .ok d => .ok (some d)

/-! ### The destination-selection loops and destination builders -/
/-- The selection loop of `buildTCPDestination`: absent weight defaults to
1, zero-weight backends are skipped; returns the kept backends (`action`)
and their weights. -/
def tcpSelect : List BackendRef → List BackendRef × List Int
  | [] => ([], [])
  | w :: rest =>
    let wt : Int := match w.weight with
      | none => 1
      | some v => v
    if wt = 0 then tcpSelect rest
    else (w :: (tcpSelect rest).1, wt :: (tcpSelect rest).2)

/-- The selection loop of `buildHTTPDestination`: as `tcpSelect`, except
that when `totalZero` is set zero-weight backends are kept (to attach the
fault injection). -/
def httpSelect (totalZero : Bool) : List HTTPBackendRef → List HTTPBackendRef × List Int
  | [] => ([], [])
  | w :: rest =>
    let wt : Int := match w.ref.weight with
      | none => 1
      | some v => v
    if wt = 0 ∧ totalZero = false then httpSelect totalZero rest
    else (w :: (httpSelect totalZero rest).1, wt :: (httpSelect totalZero rest).2)

def buildTCPRouteDestinations (ns domain : String) :
    List (BackendRef × Int) → Except ConfigError (List RouteDestination)
  | [] => .ok []
  | (fwd, weight) :: rest =>
    match buildDestination fwd ns domain with
    | .error e => .error e
    | .ok dst =>
      match buildTCPRouteDestinations ns domain rest with
      | .error e => .error e
      | .ok res => .ok (⟨dst, weight⟩ :: res)

/-- `buildTCPDestination` from conversion.go.  The zip models `weights[i]`;
the two lists always have equal length because `standardizeWeights`
preserves length. -/
def buildTCPDestination (forwardTo : List BackendRef) (ns domain : String) :
    Except ConfigError (List RouteDestination) :=
  buildTCPRouteDestinations ns domain
    ((tcpSelect forwardTo).1.zip (standardizeWeights (tcpSelect forwardTo).2))

/-- The per-backend filter loop of `buildHTTPDestination`: only
`RequestHeaderModifier` is supported. -/
def applyHTTPFilters (rd : HTTPRouteDestination) :
    List HTTPRouteFilter → Except ConfigError HTTPRouteDestination
  | [] => .ok rd
  | filter :: rest =>
    if filter.type = HTTPRouteFilterRequestHeaderModifier then
      applyHTTPFilters
        { rd with headers := createHeadersFilter filter.requestHeaderModifier } rest
    else
      .error ⟨InvalidFilter, "unsupported filter type " ++ filter.type⟩

def buildHTTPRouteDestinations (ns domain : String) :
    List (HTTPBackendRef × Int) → Except ConfigError (List HTTPRouteDestination)
  | [] => .ok []
  | (fwd, weight) :: rest =>
    match buildDestination fwd.ref ns domain with
    | .error e => .error e
    | .ok dst =>
      match applyHTTPFilters ⟨dst, weight, none⟩ fwd.filters with
      | .error e => .error e
      | .ok rd =>
        match buildHTTPRouteDestinations ns domain rest with
        | .error e => .error e
        | .ok res => .ok (rd :: res)

/-- `buildHTTPDestination` from conversion.go. -/
def buildHTTPDestination (forwardTo : List HTTPBackendRef) (ns domain : String)
    (totalZero : Bool) : Except ConfigError (List HTTPRouteDestination) :=
  buildHTTPRouteDestinations ns domain
    ((httpSelect totalZero forwardTo).1.zip
      (standardizeWeights (httpSelect totalZero forwardTo).2))

/-! ### The per-rule body of `convertHTTPRoute` -/
/-- The `zero` computation of `convertHTTPRoute`: true iff every backend
reference has its weight present and equal to zero (a `nil` weight makes it
false). -/
def allZeroWeights : List HTTPBackendRef → Bool
  | [] => true
  | w :: rest =>
    match w.ref.weight with
    | none => false
    | some v => if v ≠ 0 then false else allZeroWeights rest

/-- The route-level filter loop of `convertHTTPRoute` (lines 208–228). -/
def processRuleFilters (ns domain : String) (vs : HTTPRouteVS) :
    List HTTPRouteFilter → Except ConfigError HTTPRouteVS
  | [] => .ok vs
  | filter :: rest =>
    if filter.type = HTTPRouteFilterRequestHeaderModifier then
      processRuleFilters ns domain
        { vs with headers := createHeadersFilter filter.requestHeaderModifier } rest
    else if filter.type = HTTPRouteFilterRequestRedirect then
      processRuleFilters ns domain
        { vs with redirect := createRedirectFilter filter.requestRedirect } rest
    else if filter.type = HTTPRouteFilterRequestMirror then
      match createMirrorFilter filter.requestMirror ns domain with
      | .error e => .error e
      | .ok m => processRuleFilters ns domain { vs with mirror := m } rest
    else
      .error ⟨InvalidFilter, "unsupported filter type " ++ filter.type⟩

def emptyVS : HTTPRouteVS := ⟨none, none, none, none, []⟩

/-- The fault attached when all backend weights are zero: abort 100% of
requests with HTTP status 503. -/
def faultAbortAll503 : HTTPFault := ⟨⟨100, 503⟩⟩

/-- The per-rule body of `convertHTTPRoute` (lines 208–256): process the
rule filters, decide the all-zero-weight fault injection, and build the
destinations.  Match conversion (lines 180–207) only populates the
unmodelled `Match` field and aborts the route on invalid matches. -/
def convertHTTPRouteRule (r : HTTPRouteRule) (ns domain : String) :
    Except ConfigError HTTPRouteVS :=
  match processRuleFilters ns domain emptyVS r.filters with
  | .error e => .error e
  | .ok vs1 =>
    match buildHTTPDestination r.backendRefs ns domain (allZeroWeights r.backendRefs) with
    | .error e => .error e
    | .ok route =>
      if allZeroWeights r.backendRefs = true ∧ vs1.redirect = none then
        .ok { vs1 with fault := some faultAbortAll503, route := route }
      else
        .ok { vs1 with route := route }

def sampleBackendRef : BackendRef :=
  ⟨⟨none, none, "svc", none, some 80⟩, some 1⟩

def sampleHTTPBackendRefZero : HTTPBackendRef :=
  ⟨⟨⟨none, none, "svc", none, some 80⟩, some 0⟩, []⟩

def sampleHostnameRef : BackendObjectReference :=
  ⟨some "networking.istio.io", some "Hostname", "svc.example.com", none, some 80⟩

def sampleRule : HTTPRouteRule :=
  ⟨[], [⟨⟨sampleHostnameRef, some 0⟩, []⟩]⟩

def sampleVS : HTTPRouteVS :=
  ⟨none, none, none, some faultAbortAll503,
    [⟨⟨"svc.example.com", some 80⟩, 0, none⟩]⟩

def sampleHTTPBackendRefNone : HTTPBackendRef :=
  ⟨⟨sampleHostnameRef, none⟩, []⟩

/-- `percTimes100` is the exact rational value of `perc * 100`. -/
theorem percTimes100_eq (total w : Int) :
    percTimes100 total w = (w : ℚ) / (total : ℚ) * 100 := by
  rw [percTimes100, Rat.divInt_eq_div]
  push_cast
  ring

/-- `remainderOf` is the exact rational value of
`(perc*100) - float64(rounded)` whenever `total ≠ 0`. -/
theorem remainderOf_eq (total w : Int) (h : total ≠ 0) :
    remainderOf total w =
      percTimes100 total w - (roundedOf total w : ℚ) := by
  rw [remainderOf, percTimes100, Rat.divInt_eq_div, Rat.divInt_eq_div]
  have h0 : (total : ℚ) ≠ 0 := Int.cast_ne_zero.mpr h
  push_cast
  field_simp

/-! ### Basic facts about `intSum` -/
theorem foldl_add_eq (l : List Int) :
    ∀ acc : Int, l.foldl (fun r i => r + i) acc = acc + l.sum := by
  induction l with
  | nil => intro acc; simp
  | cons a t ih => intro acc; simp [ih, add_assoc]

theorem intSum_eq_sum (l : List Int) : intSum l = l.sum := by
  rw [intSum, foldl_add_eq, zero_add]

theorem intSum_nonneg (l : List Int) (h : ∀ w ∈ l, 0 ≤ w) : 0 ≤ intSum l := by
  rw [intSum_eq_sum]; exact List.sum_nonneg h

theorem intSum_replicate_one (n : Nat) :
    intSum (List.replicate n (1 : Int)) = (n : Int) := by
  rw [intSum_eq_sum, List.sum_replicate]
  simp

/-! ### Facts about `trunc`, `roundedOf` and `remainderOf` -/
theorem trunc_eq_floor {q : ℚ} (h : 0 ≤ q) : trunc q = ⌊q⌋ := by
  rw [trunc, if_neg (not_lt.2 h), Rat.floor_def', Rat.floor_def]

theorem roundedOf_eq_floor {total w : Int} (ht : 0 < total) (hw : 0 ≤ w) :
    roundedOf total w = ⌊(w : ℚ) / (total : ℚ) * 100⌋ := by
  have hw' : (0 : ℚ) ≤ (w : ℚ) := by exact_mod_cast hw
  have ht' : (0 : ℚ) < (total : ℚ) := by exact_mod_cast ht
  have hq : (0 : ℚ) ≤ (w : ℚ) / (total : ℚ) * 100 :=
    mul_nonneg (div_nonneg hw' ht'.le) (by norm_num)
  have h0 : 0 ≤ percTimes100 total w := by rw [percTimes100_eq]; exact hq
  rw [roundedOf, trunc_eq_floor h0, percTimes100_eq]

theorem remainderOf_eq_floor {total w : Int} (ht : 0 < total) (hw : 0 ≤ w) :
    remainderOf total w =
      (w : ℚ) / (total : ℚ) * 100 - (⌊(w : ℚ) / (total : ℚ) * 100⌋ : ℚ) := by
  rw [remainderOf_eq total w ht.ne', percTimes100_eq, roundedOf_eq_floor ht hw]

/-! ### Facts about the fallback step -/
theorem fallbackWeights_length (weights : List Int) :
    (fallbackWeights weights).length = weights.length := by
  rw [fallbackWeights]
  split <;> simp

theorem fallbackWeights_nonneg (weights : List Int)
    (h : ∀ w ∈ weights, 0 ≤ w) : ∀ w ∈ fallbackWeights weights, 0 ≤ w := by
  rw [fallbackWeights]
  split
  · intro w hw
    rw [List.eq_of_mem_replicate hw]
    norm_num
  · exact h

theorem fallbackTotal_pos (weights : List Int) (hlen : 1 ≤ weights.length)
    (hnn : ∀ w ∈ weights, 0 ≤ w) : 0 < fallbackTotal weights := by
  rw [fallbackTotal]
  split
  · exact_mod_cast hlen
  · rename_i h
    rcases lt_or_eq_of_le (intSum_nonneg weights hnn) with h' | h'
    · exact h'
    · exact absurd h'.symm h

theorem intSum_fallbackWeights (weights : List Int) :
    intSum (fallbackWeights weights) = fallbackTotal weights := by
  rw [fallbackWeights, fallbackTotal]
  split
  · exact intSum_replicate_one _
  · rfl

/-! ### Facts about `argsort` -/
theorem argsort_perm (n : List ℚ) : (argsort n).Perm (List.range n.length) :=
  List.perm_insertionSort _ _

theorem argsort_length (n : List ℚ) : (argsort n).length = n.length := by
  rw [(argsort_perm n).length_eq, List.length_range]

theorem argsort_mem_lt (n : List ℚ) {i : Nat} (h : i ∈ argsort n) :
    i < n.length := by
  have := (argsort_perm n).mem_iff.mp h
  rwa [List.mem_range] at this

theorem argsort_nodup (n : List ℚ) : (argsort n).Nodup :=
  (argsort_perm n).nodup_iff.mpr (List.nodup_range _)

theorem argsort_sorted (n : List ℚ) :
    List.Pairwise (fun i j => n.getD j 0 ≤ n.getD i 0) (argsort n) := by
  haveI h1 : IsTotal Nat (fun i j => n.getD j 0 ≤ n.getD i 0) :=
    ⟨fun a b => le_total _ _⟩
  haveI h2 : IsTrans Nat (fun i j => n.getD j 0 ≤ n.getD i 0) :=
    ⟨fun _ _ _ hab hbc => le_trans hbc hab⟩
  exact List.sorted_insertionSort _ _

/-! ### Facts about `List.set`, `distribute` and `incrAll` -/
theorem getD_set_self (l : List Int) (i : Nat) (a : Int) (h : i < l.length) :
    (l.set i a).getD i 0 = a := by
  rw [List.getD_eq_getElem?_getD, List.getElem?_set_self h]
  rfl

theorem getD_set_ne (l : List Int) {i j : Nat} (h : i ≠ j) (a : Int) :
    (l.set i a).getD j 0 = l.getD j 0 := by
  rw [List.getD_eq_getElem?_getD, List.getElem?_set_ne h,
    ← List.getD_eq_getElem?_getD]

theorem sum_set_incr (l : List Int) :
    ∀ i : Nat, i < l.length → (l.set i (l.getD i 0 + 1)).sum = l.sum + 1 := by
  induction l with
  | nil => intro i h; simp at h
  | cons a t ih =>
    intro i h
    cases i with
    | zero => simp [List.set, List.getD, add_assoc, add_comm, add_left_comm]
    | succ k =>
      have hk : k < t.length := by simpa using h
      simp only [List.set, List.getD_cons_succ, List.sum_cons, ih k hk, add_assoc]

theorem distribute_length (order : List Nat) :
    ∀ (results : List Int) (remaining : Int),
      (distribute results remaining order).length = results.length := by
  induction order with
  | nil => intro results remaining; rfl
  | cons idx rest ih =>
    intro results remaining
    rw [distribute]
    split
    · rfl
    · rw [ih, List.length_set]

theorem distribute_sum (order : List Nat) :
    ∀ (results : List Int) (remaining : Int), 0 ≤ remaining →
      remaining ≤ (order.length : Int) → (∀ i ∈ order, i < results.length) →
      (distribute results remaining order).sum = results.sum + remaining := by
  induction order with
  | nil =>
    intro results remaining h0 hlen _
    have : remaining = 0 := le_antisymm (by simpa using hlen) h0
    simp [distribute, this]
  | cons idx rest ih =>
    intro results remaining h0 hlen hmem
    rw [distribute]
    split
    · rename_i hle
      have : remaining = 0 := le_antisymm hle h0
      simp [this]
    · rename_i hgt
      have h1 : 0 < remaining := lt_of_not_le hgt
      have hidx : idx < results.length := hmem idx (List.mem_cons_self _ _)
      rw [ih _ (remaining - 1) (by omega)
          (by simp only [List.length_cons] at hlen; push_cast at hlen ⊢; omega)
          (fun i hi => by rw [List.length_set]; exact hmem i (List.mem_cons_of_mem _ hi)),
        sum_set_incr _ _ hidx]
      ring

theorem distribute_eq_incrAll (order : List Nat) :
    ∀ (results : List Int) (remaining : Int), 0 ≤ remaining →
      distribute results remaining order =
        incrAll results (order.take remaining.toNat) := by
  induction order with
  | nil => intro results remaining _; simp [distribute, incrAll]
  | cons idx rest ih =>
    intro results remaining h0
    rw [distribute]
    split
    · rename_i hle
      have : remaining = 0 := le_antisymm hle h0
      simp [this, incrAll]
    · rename_i hgt
      have h1 : 0 < remaining := lt_of_not_le hgt
      have htn : remaining.toNat = (remaining - 1).toNat + 1 := by omega
      rw [htn, List.take_succ_cons, incrAll, ih _ (remaining - 1) (by omega)]

theorem incrAll_length (idxs : List Nat) :
    ∀ results : List Int, (incrAll results idxs).length = results.length := by
  induction idxs with
  | nil => intro results; rfl
  | cons idx rest ih => intro results; rw [incrAll, ih, List.length_set]

theorem incrAll_getD (idxs : List Nat) :
    ∀ (results : List Int) (i : Nat), idxs.Nodup →
      (∀ j ∈ idxs, j < results.length) →
      (incrAll results idxs).getD i 0 =
        results.getD i 0 + (if i ∈ idxs then 1 else 0) := by
  induction idxs with
  | nil => intro results i _ _; simp [incrAll]
  | cons idx rest ih =>
    intro results i hnd hmem
    have hidx : idx < results.length := hmem idx (List.mem_cons_self _ _)
    have hnd' : rest.Nodup := hnd.of_cons
    have hninr : idx ∉ rest := (List.nodup_cons.mp hnd).1
    rw [incrAll, ih _ i hnd'
      (fun j hj => by rw [List.length_set]; exact hmem j (List.mem_cons_of_mem _ hj))]
    by_cases hii : i = idx
    · subst hii
      rw [getD_set_self _ _ _ hidx, if_pos (List.mem_cons_self _ _), if_neg hninr]
      ring
    · rw [getD_set_ne _ (fun h => hii h.symm) _]
      by_cases hir : i ∈ rest
      · rw [if_pos hir, if_pos (List.mem_cons_of_mem _ hir)]
      · rw [if_neg hir, if_neg (by simp [hii, hir])]

/-! ### The rounding bounds behind the largest-remainder distribution -/
theorem sum_rounded_bounds (l : List Int) (t : Int) (ht : 0 < t)
    (hnn : ∀ w ∈ l, 0 ≤ w) (hs : intSum l = t) :
    intSum (l.map (fun w => roundedOf t w)) ≤ 100 ∧
      100 ≤ intSum (l.map (fun w => roundedOf t w)) + (l.length : Int) := by
  have ht0 : (t : ℚ) ≠ 0 := by
    exact_mod_cast ht.ne'
  have hcast : ((l.map (fun w => roundedOf t w)).sum : ℚ)
      = (l.map (fun w => ((roundedOf t w : Int) : ℚ))).sum := by
    rw [Int.cast_list_sum, List.map_map]
    rfl
  have hsumg : (l.map (fun w : Int => (w : ℚ) / (t : ℚ) * 100)).sum = 100 := by
    have h1 : ∀ w ∈ l, (w : ℚ) / (t : ℚ) * 100 = (w : ℚ) * (100 / (t : ℚ)) := by
      intro w _
      ring
    rw [List.map_congr_left h1, List.sum_map_mul_right]
    have h2 : (l.map (fun w : Int => (w : ℚ))).sum = ((l.sum : Int) : ℚ) := by
      rw [Int.cast_list_sum]
    rw [h2, ← intSum_eq_sum, hs]
    field_simp
  have hub : (l.map (fun w => ((roundedOf t w : Int) : ℚ))).sum ≤
      (l.map (fun w : Int => (w : ℚ) / (t : ℚ) * 100)).sum := by
    apply List.sum_le_sum
    intro w hw
    rw [roundedOf_eq_floor ht (hnn w hw)]
    exact Int.floor_le _
  have hlb : ∀ L : List Int, (∀ w ∈ L, 0 ≤ w) →
      (L.map (fun w : Int => (w : ℚ) / (t : ℚ) * 100)).sum ≤
        (L.map (fun w => ((roundedOf t w : Int) : ℚ))).sum + (L.length : ℚ) := by
    intro L
    induction L with
    | nil => intro _; simp
    | cons a tl ih =>
      intro h
      have ha : (a : ℚ) / (t : ℚ) * 100 ≤ ((roundedOf t a : Int) : ℚ) + 1 := by
        rw [roundedOf_eq_floor ht (h a (List.mem_cons_self _ _))]
        exact (Int.lt_floor_add_one _).le
      have htl := ih (fun w hw => h w (List.mem_cons_of_mem _ hw))
      simp only [List.map_cons, List.sum_cons, List.length_cons]
      push_cast
      linarith
  constructor
  · have : ((l.map (fun w => roundedOf t w)).sum : ℚ) ≤ 100 := by
      rw [hcast]
      exact hsumg ▸ hub
    rw [intSum_eq_sum]
    exact_mod_cast this
  · have : (100 : ℚ) ≤ ((l.map (fun w => roundedOf t w)).sum : ℚ) + (l.length : ℚ) := by
      rw [hcast]
      calc (100 : ℚ) = (l.map (fun w : Int => (w : ℚ) / (t : ℚ) * 100)).sum := hsumg.symm
        _ ≤ _ := hlb l hnn
    rw [intSum_eq_sum]
    exact_mod_cast this

/-! ### Unfolding `standardizeWeights` past the length-one shortcut -/
theorem standardizeWeights_eq (weights : List Int) (h : weights.length ≠ 1) :
    standardizeWeights weights =
      distribute
        ((fallbackWeights weights).map (fun w => roundedOf (fallbackTotal weights) w))
        (100 - intSum
          ((fallbackWeights weights).map (fun w => roundedOf (fallbackTotal weights) w)))
        (argsort
          ((fallbackWeights weights).map (fun w => remainderOf (fallbackTotal weights) w))) := by
  rw [standardizeWeights, standardizeWeightsFull, if_neg h]

/-- C1: for every input weight sequence of length at least two whose entries
are all non-negative integers, the sequence returned by `standardizeWeights`
sums to exactly 100. -/
theorem standardizeWeights_sum_eq_100 (weights : List Int)
    (hlen : 2 ≤ weights.length) (hnn : ∀ w ∈ weights, 0 ≤ w) :
    intSum (standardizeWeights weights) = 100 := by
  have h1 : weights.length ≠ 1 := by omega
  rw [standardizeWeights_eq weights h1]
  set l := fallbackWeights weights with hl
  set t := fallbackTotal weights with htdef
  have ht : 0 < t := fallbackTotal_pos weights (by omega) hnn
  have hnn1 : ∀ w ∈ l, 0 ≤ w := fallbackWeights_nonneg weights hnn
  have hs : intSum l = t := intSum_fallbackWeights weights
  have hlength : l.length = weights.length := fallbackWeights_length weights
  obtain ⟨hub, hlb⟩ := sum_rounded_bounds l t ht hnn1 hs
  set results := l.map (fun w => roundedOf t w) with hres
  set remainders := l.map (fun w => remainderOf t w) with hrem
  have hreslen : results.length = l.length := List.length_map _ _
  have hremlen : remainders.length = l.length := List.length_map _ _
  have horderlen : (argsort remainders).length = l.length := by
    rw [argsort_length, hremlen]
  have hmem : ∀ i ∈ argsort remainders, i < results.length := by
    intro i hi
    rw [hreslen, ← hremlen]
    exact argsort_mem_lt remainders hi
  rw [intSum_eq_sum,
    distribute_sum (argsort remainders) results (100 - intSum results)
      (by omega) (by rw [horderlen]; omega) hmem,
    ← intSum_eq_sum]
  ring

theorem standardizeWeights_sum_eq_100_witness :
    2 ≤ ([30, 30, 30] : List Int).length ∧ (∀ w ∈ ([30, 30, 30] : List Int), 0 ≤ w) ∧
      intSum (standardizeWeights [30, 30, 30]) = 100 :=
  ⟨by decide, by decide, standardizeWeights_sum_eq_100 [30, 30, 30] (by decide) (by decide)⟩

/-- C3: for every input sequence of length one, regardless of the value of
its single entry, `standardizeWeights` returns `[0]`. -/
theorem standardizeWeights_single (w : Int) : standardizeWeights [w] = [0] := rfl

theorem distribute_nonpos (results : List Int) (remaining : Int)
    (order : List Nat) (h : remaining ≤ 0) :
    distribute results remaining order = results := by
  cases order with
  | nil => rfl
  | cons idx rest => rw [distribute, if_pos h]

/-- C5: a non-negative input sequence of length at least two that already
sums to exactly 100 is returned unchanged by `standardizeWeights`. -/
theorem standardizeWeights_idempotent (weights : List Int)
    (hlen : 2 ≤ weights.length) (hnn : ∀ w ∈ weights, 0 ≤ w)
    (hsum : intSum weights = 100) :
    standardizeWeights weights = weights := by
  have h1 : weights.length ≠ 1 := by omega
  have h0 : intSum weights ≠ 0 := by omega
  have hfw : fallbackWeights weights = weights := by
    rw [fallbackWeights, if_neg h0]
  have hft : fallbackTotal weights = 100 := by
    rw [fallbackTotal, if_neg h0, hsum]
  have hres : weights.map (fun w => roundedOf 100 w) = weights := by
    have hpt : ∀ w ∈ weights, roundedOf 100 w = w := by
      intro w hw
      rw [roundedOf_eq_floor (by norm_num) (hnn w hw)]
      have hc : ((100 : Int) : ℚ) = (100 : ℚ) := by norm_num
      rw [hc, div_mul_cancel₀ ((w : ℚ)) (by norm_num : (100 : ℚ) ≠ 0),
        Int.floor_intCast]
    rw [List.map_congr_left hpt]
    exact List.map_id' weights
  rw [standardizeWeights_eq weights h1, hfw, hft, hres, hsum]
  exact distribute_nonpos _ _ _ (by norm_num)

theorem standardizeWeights_idempotent_witness :
    intSum [20, 80] = 100 ∧ standardizeWeights [20, 80] = [20, 80] :=
  ⟨by decide, standardizeWeights_idempotent [20, 80] (by decide) (by decide) (by decide)⟩

/-- C4: an all-zero input of length at least two is treated as all ones
(even split); `[0,0]` yields `[50,50]`, and `[0,0,0]` yields a permutation
of `{34,33,33}`. -/
theorem standardizeWeights_all_zero :
    (∀ n : Nat, 2 ≤ n →
        standardizeWeights (List.replicate n (0 : Int)) =
          standardizeWeights (List.replicate n (1 : Int)))
    ∧ standardizeWeights [0, 0] = [50, 50]
    ∧ (standardizeWeights [0, 0, 0]).Perm [34, 33, 33] := by
  refine ⟨?_, by decide, ?_⟩
  · intro n hn
    have hlen0 : (List.replicate n (0 : Int)).length = n := List.length_replicate _ _
    have hlen1 : (List.replicate n (1 : Int)).length = n := List.length_replicate _ _
    have h0 : intSum (List.replicate n (0 : Int)) = 0 := by
      rw [intSum_eq_sum, List.sum_replicate]
      simp
    have h1 : intSum (List.replicate n (1 : Int)) = (n : Int) :=
      intSum_replicate_one n
    have hne : intSum (List.replicate n (1 : Int)) ≠ 0 := by
      rw [h1]
      have : 0 < (n : Int) := by exact_mod_cast (by omega : 0 < n)
      exact this.ne'
    have hfw0 : fallbackWeights (List.replicate n (0 : Int)) = List.replicate n 1 := by
      rw [fallbackWeights, if_pos h0, hlen0]
    have hfw1 : fallbackWeights (List.replicate n (1 : Int)) = List.replicate n 1 := by
      rw [fallbackWeights, if_neg hne]
    have hft0 : fallbackTotal (List.replicate n (0 : Int)) = (n : Int) := by
      rw [fallbackTotal, if_pos h0, hlen0]
    have hft1 : fallbackTotal (List.replicate n (1 : Int)) = (n : Int) := by
      rw [fallbackTotal, if_neg hne, h1]
    rw [standardizeWeights_eq _ (by rw [hlen0]; omega),
      standardizeWeights_eq _ (by rw [hlen1]; omega),
      hfw0, hfw1, hft0, hft1]
  · have h : standardizeWeights [0, 0, 0] = [34, 33, 33] := by decide
    rw [h]

theorem standardizeWeights_all_zero_witness :
    standardizeWeights (List.replicate 2 (0 : Int)) =
      standardizeWeights (List.replicate 2 (1 : Int)) :=
  standardizeWeights_all_zero.1 2 (by decide)

/-- C7 counterexample: `standardizeWeights` overwrites the caller's slice on
the all-zero input `[0, 0]`; after the call the input buffer holds `[1, 1]`,
not the original `[0, 0]`. -/
theorem standardizeWeightsFull_mutates : (standardizeWeightsFull [0, 0]).1 ≠ [0, 0] := by
  decide

/-- C7 amended: the caller's input slice is left unchanged by
`standardizeWeights` except when the input has length other than one and
sums to zero, in which case every element is overwritten with `1`. -/
theorem standardizeWeightsFull_fst_eq (weights : List Int) :
    (standardizeWeightsFull weights).1 =
      if weights.length ≠ 1 ∧ intSum weights = 0
      then List.replicate weights.length 1 else weights := by
  by_cases h : weights.length = 1
  · simp [standardizeWeightsFull, h]
  · by_cases h0 : intSum weights = 0
    · simp [standardizeWeightsFull, fallbackWeights, h, h0]
    · simp [standardizeWeightsFull, fallbackWeights, h, h0]

theorem flooredPercents_length (weights : List Int) :
    (flooredPercents weights).length = weights.length := by
  rw [flooredPercents, List.length_map, fallbackWeights_length]

theorem fracRemainders_length (weights : List Int) :
    (fracRemainders weights).length = weights.length := by
  rw [fracRemainders, List.length_map, fallbackWeights_length]

theorem flooredPercents_eq (weights : List Int) (hlen : 1 ≤ weights.length)
    (hnn : ∀ w ∈ weights, 0 ≤ w) :
    flooredPercents weights =
      (fallbackWeights weights).map (fun w => roundedOf (fallbackTotal weights) w) := by
  apply List.map_congr_left
  intro w hw
  exact (roundedOf_eq_floor (fallbackTotal_pos weights hlen hnn)
    (fallbackWeights_nonneg weights hnn w hw)).symm

theorem fracRemainders_eq (weights : List Int) (hlen : 1 ≤ weights.length)
    (hnn : ∀ w ∈ weights, 0 ≤ w) :
    fracRemainders weights =
      (fallbackWeights weights).map (fun w => remainderOf (fallbackTotal weights) w) := by
  apply List.map_congr_left
  intro w hw
  exact (remainderOf_eq_floor (fallbackTotal_pos weights hlen hnn)
    (fallbackWeights_nonneg weights hnn w hw)).symm

theorem flooredPercents_sum_bounds (weights : List Int) (hlen : 2 ≤ weights.length)
    (hnn : ∀ w ∈ weights, 0 ≤ w) :
    intSum (flooredPercents weights) ≤ 100 ∧
      100 ≤ intSum (flooredPercents weights) + (weights.length : Int) := by
  rw [flooredPercents_eq weights (by omega) hnn, ← fallbackWeights_length weights]
  exact sum_rounded_bounds (fallbackWeights weights) (fallbackTotal weights)
    (fallbackTotal_pos weights (by omega) hnn)
    (fallbackWeights_nonneg weights hnn) (intSum_fallbackWeights weights)

theorem standardizeWeights_distribute_floors (weights : List Int)
    (hlen : 2 ≤ weights.length) (hnn : ∀ w ∈ weights, 0 ≤ w) :
    standardizeWeights weights =
      distribute (flooredPercents weights)
        (100 - intSum (flooredPercents weights))
        (argsort (fracRemainders weights)) := by
  rw [standardizeWeights_eq weights (by omega),
    flooredPercents_eq weights (by omega) hnn,
    fracRemainders_eq weights (by omega) hnn]

theorem standardizeWeights_incrAll_take (weights : List Int)
    (hlen : 2 ≤ weights.length) (hnn : ∀ w ∈ weights, 0 ≤ w) :
    standardizeWeights weights =
      incrAll (flooredPercents weights)
        ((argsort (fracRemainders weights)).take
          (100 - intSum (flooredPercents weights)).toNat) := by
  rw [standardizeWeights_distribute_floors weights hlen hnn]
  exact distribute_eq_incrAll _ _ _
    (by have := (flooredPercents_sum_bounds weights hlen hnn).1; omega)

theorem standardizeWeights_getD_floor (weights : List Int)
    (hlen : 2 ≤ weights.length) (hnn : ∀ w ∈ weights, 0 ≤ w) :
    ∀ i, i < weights.length →
      (standardizeWeights weights).getD i 0 = (flooredPercents weights).getD i 0 ∨
      (standardizeWeights weights).getD i 0 = (flooredPercents weights).getD i 0 + 1 := by
  intro i hi
  have hnd : ((argsort (fracRemainders weights)).take
      (100 - intSum (flooredPercents weights)).toNat).Nodup :=
    (List.take_sublist _ _).nodup (argsort_nodup _)
  have hmem : ∀ j ∈ (argsort (fracRemainders weights)).take
      (100 - intSum (flooredPercents weights)).toNat,
      j < (flooredPercents weights).length := by
    intro j hj
    have hj' : j ∈ argsort (fracRemainders weights) := List.mem_of_mem_take hj
    have := argsort_mem_lt _ hj'
    rw [fracRemainders_length] at this
    rwa [flooredPercents_length]
  rw [standardizeWeights_incrAll_take weights hlen hnn, incrAll_getD _ _ i hnd hmem]
  by_cases h : i ∈ (argsort (fracRemainders weights)).take
      (100 - intSum (flooredPercents weights)).toNat
  · right
    rw [if_pos h]
  · left
    rw [if_neg h, add_zero]

/-- C2: for a non-negative input of length at least two, `standardizeWeights`
computes each weight's exact floored percentage (over the post-fallback
weights and total), then hands one extra unit each to the first
`100 - sum(floors)` indices of a descending-remainder ordering of all
indices; consequently every output entry equals its floored exact percentage
or that value plus one. -/
theorem standardizeWeights_largest_remainder (weights : List Int)
    (hlen : 2 ≤ weights.length) (hnn : ∀ w ∈ weights, 0 ≤ w) :
    standardizeWeights weights =
      incrAll (flooredPercents weights)
        ((argsort (fracRemainders weights)).take
          (100 - intSum (flooredPercents weights)).toNat)
    ∧ (argsort (fracRemainders weights)).Perm (List.range weights.length)
    ∧ List.Pairwise
        (fun i j => (fracRemainders weights).getD j 0 ≤ (fracRemainders weights).getD i 0)
        (argsort (fracRemainders weights))
    ∧ ∀ i, i < weights.length →
        (standardizeWeights weights).getD i 0 = (flooredPercents weights).getD i 0 ∨
        (standardizeWeights weights).getD i 0 = (flooredPercents weights).getD i 0 + 1 := by
  refine ⟨standardizeWeights_incrAll_take weights hlen hnn, ?_, argsort_sorted _,
    standardizeWeights_getD_floor weights hlen hnn⟩
  have := argsort_perm (fracRemainders weights)
  rwa [fracRemainders_length] at this

theorem standardizeWeights_largest_remainder_witness :
    standardizeWeights [1, 2] =
      incrAll (flooredPercents [1, 2])
        ((argsort (fracRemainders [1, 2])).take
          (100 - intSum (flooredPercents [1, 2])).toNat) :=
  (standardizeWeights_largest_remainder [1, 2] (by decide) (by decide)).1

/-- C6: the output of `standardizeWeights` has the same length as the input,
and (outside the length-one sentinel case) the entry at each index is the
floored exact percentage of the input entry at that same index, possibly
plus one — the output corresponds to the input index for index. -/
theorem standardizeWeights_shape (weights : List Int)
    (hnn : ∀ w ∈ weights, 0 ≤ w) :
    (standardizeWeights weights).length = weights.length
    ∧ (weights.length ≠ 1 → ∀ i, i < weights.length →
        (standardizeWeights weights).getD i 0 = (flooredPercents weights).getD i 0 ∨
        (standardizeWeights weights).getD i 0 = (flooredPercents weights).getD i 0 + 1) := by
  by_cases h : weights.length = 1
  · refine ⟨?_, fun hc => absurd h hc⟩
    rw [standardizeWeights, standardizeWeightsFull, if_pos h]
    simp [h]
  · refine ⟨?_, fun _ i hi => ?_⟩
    · rw [standardizeWeights_eq weights h, distribute_length, List.length_map,
        fallbackWeights_length]
    · have hlen2 : 2 ≤ weights.length := by omega
      exact standardizeWeights_getD_floor weights hlen2 hnn i hi

theorem standardizeWeights_shape_witness :
    (standardizeWeights [5, 5, 5, 5]).length = ([5, 5, 5, 5] : List Int).length :=
  (standardizeWeights_shape [5, 5, 5, 5] (by decide)).1

theorem roundLoop_eq (total : Int) (h : total ≠ 0) : ∀ l : List Int,
    roundLoop total l =
      some (l.map (fun w => (roundedOf total w, remainderOf total w))) := by
  intro l
  induction l with
  | nil => rfl
  | cons w rest ih => rw [roundLoop, if_neg h, ih, List.map_cons]

theorem distributeChecked_eq (order : List Nat) :
    ∀ (results : List Int) (remaining : Int),
      (∀ i ∈ order, i < results.length) →
      distributeChecked results remaining order =
        some (distribute results remaining order) := by
  induction order with
  | nil => intro results remaining _; rfl
  | cons idx rest ih =>
    intro results remaining hmem
    have hidx : idx < results.length := hmem idx (List.mem_cons_self _ _)
    have hget : results.get ⟨idx, hidx⟩ = results.getD idx 0 := by
      rw [List.getD_eq_getElem _ _ hidx]
      rfl
    rw [distributeChecked, distribute]
    split
    · rfl
    · rw [hget]
      exact ih _ _ (fun i hi => by
        rw [List.length_set]
        exact hmem i (List.mem_cons_of_mem _ hi))

/-- C8: on the contract domain (length at least one, all entries
non-negative) the checked embedding never faults — no division by zero and
no out-of-range index occurs — and it returns exactly the value of
`standardizeWeights`. -/
theorem standardizeWeightsChecked_total (weights : List Int)
    (hlen : 1 ≤ weights.length) (hnn : ∀ w ∈ weights, 0 ≤ w) :
    standardizeWeightsChecked weights = some (standardizeWeights weights) := by
  by_cases h : weights.length = 1
  · rw [standardizeWeightsChecked, if_pos h, standardizeWeights,
      standardizeWeightsFull, if_pos h]
  · have ht : fallbackTotal weights ≠ 0 := (fallbackTotal_pos weights hlen hnn).ne'
    rw [standardizeWeightsChecked, if_neg h, roundLoop_eq _ ht]
    simp only [List.map_map]
    have hfst : (Prod.fst ∘ fun w =>
        (roundedOf (fallbackTotal weights) w, remainderOf (fallbackTotal weights) w)) =
        fun w => roundedOf (fallbackTotal weights) w := rfl
    have hsnd : (Prod.snd ∘ fun w =>
        (roundedOf (fallbackTotal weights) w, remainderOf (fallbackTotal weights) w)) =
        fun w => remainderOf (fallbackTotal weights) w := rfl
    rw [hfst, hsnd]
    rw [distributeChecked_eq _ _ _ (fun i hi => by
      have := argsort_mem_lt _ hi
      rw [List.length_map] at this
      rwa [List.length_map])]
    rw [standardizeWeights_eq weights h]

theorem standardizeWeightsChecked_total_witness :
    standardizeWeightsChecked [2, 3] = some (standardizeWeights [2, 3]) :=
  standardizeWeightsChecked_total [2, 3] (by decide) (by decide)

/-! ### C9 and C10 -/
/-- C9: in the callers of the weight standardizer, a backend reference whose
weight field is present and equal to 0 is excluded from the kept backend
list (`action`) before standardization — in `buildTCPDestination` always,
and in `buildHTTPDestination` when `totalZero` is false — while with
`totalZero` set (the HTTP fault-injection case) every backend is kept. -/
theorem zero_weight_backends_excluded :
    (∀ (refs : List BackendRef) (b : BackendRef),
        b ∈ (tcpSelect refs).1 → b.weight ≠ some 0)
    ∧ (∀ (refs : List HTTPBackendRef) (b : HTTPBackendRef),
        b ∈ (httpSelect false refs).1 → b.ref.weight ≠ some 0)
    ∧ (∀ refs : List HTTPBackendRef, (httpSelect true refs).1 = refs) := by
  refine ⟨?_, ?_, ?_⟩
  · intro refs
    induction refs with
    | nil => intro b hb; simp [tcpSelect] at hb
    | cons w rest ih =>
      intro b hb
      simp only [tcpSelect] at hb
      by_cases h0 : (match w.weight with | none => (1 : Int) | some v => v) = 0
      · rw [if_pos h0] at hb
        exact ih b hb
      · rw [if_neg h0] at hb
        rcases List.mem_cons.mp hb with h | h
        · subst h
          intro hw
          rw [hw] at h0
          exact h0 rfl
        · exact ih b h
  · intro refs
    induction refs with
    | nil => intro b hb; simp [httpSelect] at hb
    | cons w rest ih =>
      intro b hb
      simp only [httpSelect] at hb
      by_cases h0 : (match w.ref.weight with | none => (1 : Int) | some v => v) = 0
      · rw [if_pos ⟨h0, by simp⟩] at hb
        exact ih b hb
      · rw [if_neg (fun hc => h0 hc.1)] at hb
        rcases List.mem_cons.mp hb with h | h
        · subst h
          intro hw
          rw [hw] at h0
          exact h0 rfl
        · exact ih b h
  · intro refs
    induction refs with
    | nil => rfl
    | cons w rest ih =>
      simp only [httpSelect]
      rw [if_neg (by simp), ih]

theorem zero_weight_backends_excluded_witness :
    sampleBackendRef.weight ≠ some 0 ∧
      (httpSelect true [sampleHTTPBackendRefZero]).1 = [sampleHTTPBackendRefZero] :=
  ⟨zero_weight_backends_excluded.1 [sampleBackendRef] sampleBackendRef (by decide),
    zero_weight_backends_excluded.2.2 [sampleHTTPBackendRefZero]⟩

theorem allZeroWeights_of_all (refs : List HTTPBackendRef)
    (h : ∀ b ∈ refs, b.ref.weight = some 0) : allZeroWeights refs = true := by
  induction refs with
  | nil => rfl
  | cons w rest ih =>
    rw [allZeroWeights, h w (List.mem_cons_self _ _)]
    show (if (0 : Int) ≠ 0 then false else allZeroWeights rest) = true
    rw [if_neg (by norm_num)]
    exact ih (fun b hb => h b (List.mem_cons_of_mem _ hb))

/-- C10: when a rule has at least one backend reference, every backend
weight is present and equal to 0, and the generated route has no redirect,
the generated route carries a fault injection aborting 100% of requests with
HTTP status 503; and a backend reference with an absent weight makes the
all-zero test false (it counts as non-zero). -/
theorem all_zero_weights_fault :
    (∀ (r : HTTPRouteRule) (ns domain : String) (vs : HTTPRouteVS),
        r.backendRefs ≠ [] →
        (∀ b ∈ r.backendRefs, b.ref.weight = some 0) →
        convertHTTPRouteRule r ns domain = .ok vs →
        vs.redirect = none →
        vs.fault = some ⟨⟨100, 503⟩⟩)
    ∧ (∀ (refs : List HTTPBackendRef) (b : HTTPBackendRef),
        b ∈ refs → b.ref.weight = none → allZeroWeights refs = false) := by
  constructor
  · intro r ns domain vs hne hall hok hredir
    have hzero : allZeroWeights r.backendRefs = true := allZeroWeights_of_all _ hall
    simp only [convertHTTPRouteRule] at hok
    cases hpf : processRuleFilters ns domain emptyVS r.filters with
    | error e =>
      simp [hpf] at hok
    | ok vs1 =>
      simp only [hpf] at hok
      cases hbd : buildHTTPDestination r.backendRefs ns domain (allZeroWeights r.backendRefs) with
      | error e =>
        simp [hbd] at hok
      | ok route =>
        simp only [hbd] at hok
        by_cases hred1 : vs1.redirect = none
        · rw [if_pos ⟨hzero, hred1⟩] at hok
          cases hok
          rfl
        · rw [if_neg (fun hc => hred1 hc.2)] at hok
          cases hok
          exact absurd hredir hred1
  · intro refs
    induction refs with
    | nil => intro b hb _; simp at hb
    | cons w rest ih =>
      intro b hb hw
      rcases List.mem_cons.mp hb with h | h
      · subst h
        rw [allZeroWeights, hw]
      · rw [allZeroWeights]
        cases hv : w.ref.weight with
        | none => rfl
        | some v =>
          show (if v ≠ 0 then false else allZeroWeights rest) = false
          by_cases h0 : v ≠ 0
          · rw [if_pos h0]
          · rw [if_neg h0]
            exact ih b h hw

theorem all_zero_weights_fault_witness :
    sampleVS.fault = some ⟨⟨100, 503⟩⟩ ∧
      allZeroWeights [sampleHTTPBackendRefNone] = false :=
  ⟨all_zero_weights_fault.1 sampleRule "default" "cluster.local" sampleVS
      (by decide) (by decide) rfl rfl,
    all_zero_weights_fault.2 [sampleHTTPBackendRefNone] sampleHTTPBackendRefNone
      (by decide) rfl⟩

end GatewayConversion
